import Mathlib

set_option linter.unusedSectionVars false
set_option linter.unnecessarySimpa false

/-!
Verification development for the sparse multivariate polynomial engine
(`src/main.rs`).

The program represents a polynomial as a `HashMap<Monomial<P>, K>` from
monomials (fixed-width unsigned exponent vectors) to ring coefficients.
The embedding models the hash map as an association list iterated in list
order (one admissible instantiation of the hash map's unspecified iteration
order; the key set carries the map's guarantee of at most one entry per key),
`u32` exponents as natural numbers reduced modulo `2 ^ 32` (release-mode
wrapping semantics of `+`), and the generic coefficient type parameter `K`
(bounded by the `RingElement` capability) as an arbitrary `Ring` with
decidable equality.

Definitions translated from the source: `expAdd`, `monomialProd`,
`lookupK`, `eraseKey`, `setKey`, `addStep`, `addTerms` (`impl Add`),
`mulStep`, `mulTerms` (`impl Mul`), `fmtMonomial`
(`PolynomialRing::fmt_monomial`), `fmtPolynomial` (`impl Display`).

Definitions modelled from the spec (the corresponding source items are
`todo!()` placeholders or absent): `negTerms`/`subTerms` (`impl Sub` is
`todo!()`), `zeroPoly` (`Zero::zero` is `todo!()`), `tryAsReduced` (no such
function exists in the source).

Spec-side characterizations (stated from the specification's words, to be
compared with the source-side functions): `addMergeSpec`, `bilinearSum`,
`monomialStr`, `termStr`, `polynomialStr`.
-/

/-- Width modulus of the exponent type: the demonstration entry point
instantiates the exponent parameter `P` at `u32`, whose `+` wraps modulo
`2 ^ 32` in release mode. -/
def U32 : Nat := 4294967296

/-- Embeds `struct Monomial<P> { powers: Vec<P> }` at `P = u32`: a vector of
exponents, each held as a `Nat` that is kept below `U32` by `expAdd`. -/
abbrev Monomial : Type := List Nat

/-- Wrapping `u32` addition: the `*m1 + *m2` performed inside
`Polynomial::mul` on each exponent pair. -/
def expAdd (a b : Nat) : Nat := (a + b) % U32

/-- Product monomial computed inside `Polynomial::mul`:
`zip(m1.powers.iter(), m2.powers.iter()).map(|(m1, m2)| *m1 + *m2).collect()`.
Rust's `zip` truncates to the shorter of the two vectors and the sum is the
wrapping `u32` addition. -/
def monomialProd (m1 m2 : Monomial) : Monomial := List.zipWith expAdd m1 m2

/-- Embeds the `terms: HashMap<Monomial<P>, K>` field of `Polynomial` as an
association list; the hash map's key uniqueness is carried separately as
`nodupKeys`. -/
abbrev Terms (K : Type) : Type := List (Monomial × K)

variable {K : Type} [Ring K] [DecidableEq K]

/-- First-match lookup, the model of `HashMap::entry`/indexing: on a key-unique
list it returns the unique value stored at `M`. -/
def lookupK (M : Monomial) : Terms K → Option K
  | [] => none
  | t :: ts => if t.1 = M then some t.2 else lookupK M ts

/-- Removal of the entry at a key, the model of `OccupiedEntry::remove`. -/
def eraseKey (M : Monomial) (ts : Terms K) : Terms K :=
  ts.filter (fun t => ¬ t.1 = M)

/-- In-place overwrite of the value at a key, the model of
`*entry.get_mut() = v` on an occupied entry. -/
def setKey (M : Monomial) (c : K) (ts : Terms K) : Terms K :=
  ts.map (fun t => if t.1 = M then (M, c) else t)

/-- One iteration of the loop body of `Polynomial::add` (src/main.rs:100-111):
an occupied entry is accumulated with `+=` and removed when the sum is zero;
a vacant entry receives the right-hand coefficient unconditionally. -/
def addStep (acc : Terms K) (t : Monomial × K) : Terms K :=
  match lookupK t.1 acc with
  | some c1 => if c1 + t.2 = 0 then eraseKey t.1 acc else setKey t.1 (c1 + t.2) acc
  | none => acc ++ [t]

/-- Embeds `Polynomial::add` (src/main.rs:98-117): clone the left operand's
term map, then fold every term of the right operand into it. -/
def addTerms (f g : Terms K) : Terms K := g.foldl addStep f

/-- One iteration of the inner loop body of `Polynomial::mul`
(src/main.rs:146-163): the contribution `c1 * c2` at the product monomial is
accumulated into an occupied entry (removed when the sum is zero) or inserted
unconditionally into a vacant one. -/
def mulStep (m1 : Monomial) (c1 : K) (acc : Terms K) (t2 : Monomial × K) : Terms K :=
  match lookupK (monomialProd m1 t2.1) acc with
  | some v =>
      if v + c1 * t2.2 = 0 then eraseKey (monomialProd m1 t2.1) acc
      else setKey (monomialProd m1 t2.1) (v + c1 * t2.2) acc
  | none => acc ++ [(monomialProd m1 t2.1, c1 * t2.2)]

/-- Embeds `Polynomial::mul` (src/main.rs:143-169): starting from an empty
map, fold the contribution of every pair of terms, left operand outermost. -/
def mulTerms (f g : Terms K) : Terms K :=
  f.foldl (fun acc t1 => g.foldl (mulStep t1.1 t1.2) acc) []

/-- Key uniqueness, the invariant `HashMap` provides for the `terms` field. -/
abbrev nodupKeys (ts : Terms K) : Prop := (ts.map Prod.fst).Nodup

/-- Reduced form of a term map (spec section 3): at most one entry per monomial
and no coefficient equal to the ring's additive identity. -/
abbrev ReducedT (ts : Terms K) : Prop := nodupKeys ts ∧ ∀ t ∈ ts, t.2 ≠ 0

/-- Modelled from the spec: the additive identity (spec section 4.4, "the empty
term map"); the source leaves `Zero::zero` for `Polynomial` as a `todo!()`
placeholder (src/main.rs:197-199). -/
def zeroPoly : Terms K := []

/-- Modelled from the spec: negation of every coefficient of the right operand
by `zero - coeff` (spec section 4.4); the source's `impl Sub` is a `todo!()`
placeholder (src/main.rs:129-131). -/
def negTerms (g : Terms K) : Terms K := g.map (fun t => (t.1, 0 - t.2))

/-- Modelled from the spec: subtraction negates every coefficient of the right
operand and then applies addition (spec section 4.4); the source's `impl Sub`
is a `todo!()` placeholder (src/main.rs:129-131). -/
def subTerms (f g : Terms K) : Terms K := addTerms f (negTerms g)

/-- Modelled from the spec: `try_as_reduced` (spec section 4.3) scans the raw
term list and returns it reinterpreted as Reduced when every monomial is
distinct and no coefficient is zero, and otherwise fails carrying the original
list back unchanged; no such function exists in the source. -/
def tryAsReduced (ts : Terms K) : Except (Terms K) (Terms K) :=
  if ReducedT ts then Except.ok ts else Except.error ts

/-- Spec-side merge of two lookups, following the words of the specification's
description of addition (spec section 4.4): a monomial present in exactly one
operand keeps that coefficient, one present in both maps to the ring sum, and
a zero sum is dropped. -/
def addMergeSpec : Option K → Option K → Option K
  | some a, some b => if a + b = 0 then none else some (a + b)
  | some a, none => some a
  | none, some b => some b
  | none, none => none

/-- Spec-side sum of the contributions of one left term against every term of
the right operand at a fixed resulting monomial. -/
def innerSum (m1 : Monomial) (c1 : K) (g : Terms K) (M : Monomial) : K :=
  (g.map (fun t2 => if monomialProd m1 t2.1 = M then c1 * t2.2 else 0)).sum

/-- Spec-side full bilinear expansion (spec section 4.4): the total coefficient
contributed to monomial `M` by all pairs of terms, one from each operand. -/
def bilinearSum (f g : Terms K) (M : Monomial) : K :=
  (f.map (fun t1 => innerSum t1.1 t1.2 g M)).sum

@[simp] theorem lookupK_nil (M : Monomial) : lookupK M ([] : Terms K) = none := rfl

@[simp] theorem lookupK_cons (M : Monomial) (t : Monomial × K) (ts : Terms K) :
    lookupK M (t :: ts) = if t.1 = M then some t.2 else lookupK M ts := rfl

theorem lookupK_eraseKey (M M' : Monomial) (ts : Terms K) :
    lookupK M (eraseKey M' ts) = if M' = M then none else lookupK M ts := by
  induction ts with
  | nil => simp [eraseKey]
  | cons t ts ih =>
      by_cases h1 : t.1 = M' <;> by_cases h2 : M' = M <;>
        simp_all [eraseKey, List.filter_cons]

theorem lookupK_setKey (M M' : Monomial) (c : K) (ts : Terms K) :
    lookupK M (setKey M' c ts) =
      if M' = M then (lookupK M' ts).map (fun _ => c) else lookupK M ts := by
  induction ts with
  | nil => simp [setKey]
  | cons t ts ih =>
      by_cases h1 : t.1 = M' <;> by_cases h2 : M' = M <;>
        simp_all [setKey]

theorem lookupK_append_of_some (M : Monomial) (ts l : Terms K) (v : K)
    (h : lookupK M ts = some v) : lookupK M (ts ++ l) = some v := by
  induction ts with
  | nil => simp at h
  | cons t ts ih =>
      by_cases h1 : t.1 = M <;> simp_all

theorem lookupK_append_of_none (M : Monomial) (ts l : Terms K)
    (h : lookupK M ts = none) : lookupK M (ts ++ l) = lookupK M l := by
  induction ts with
  | nil => simp
  | cons t ts ih =>
      by_cases h1 : t.1 = M <;> simp_all

theorem lookupK_eq_none_iff (M : Monomial) (ts : Terms K) :
    lookupK M ts = none ↔ M ∉ ts.map Prod.fst := by
  induction ts with
  | nil => simp
  | cons t ts ih =>
      by_cases h1 : t.1 = M <;> simp_all [eq_comm]

theorem lookupK_mem (M : Monomial) (ts : Terms K) (v : K)
    (h : lookupK M ts = some v) : (M, v) ∈ ts := by
  induction ts with
  | nil => simp at h
  | cons t ts ih =>
      by_cases h1 : t.1 = M
      · simp [h1] at h
        subst h1
        rw [← h]
        exact List.mem_cons_self _ _
      · simp [h1] at h
        exact List.mem_cons_of_mem _ (ih h)

theorem lookupK_of_mem (ts : Terms K) (t : Monomial × K)
    (hk : nodupKeys ts) (h : t ∈ ts) : lookupK t.1 ts = some t.2 := by
  induction ts with
  | nil => simp at h
  | cons s ts ih =>
      rcases List.mem_cons.1 h with h | h
      · subst h
        simp
      · have hne : s.1 ≠ t.1 := by
          intro he
          have : t.1 ∈ ts.map Prod.fst := List.mem_map_of_mem Prod.fst h
          rw [← he] at this
          exact (List.nodup_cons.1 hk).1 this
        simp only [lookupK_cons, if_neg hne]
        exact ih (List.nodup_cons.1 hk).2 h

theorem nodupKeys_eraseKey (M : Monomial) (ts : Terms K) (h : nodupKeys ts) :
    nodupKeys (eraseKey M ts) := by
  have hsub : ((eraseKey M ts).map Prod.fst).Sublist (ts.map Prod.fst) :=
    List.Sublist.map Prod.fst (List.filter_sublist ts)
  exact List.Nodup.sublist hsub h

theorem setKey_map_fst (M : Monomial) (c : K) (ts : Terms K) :
    (setKey M c ts).map Prod.fst = ts.map Prod.fst := by
  induction ts with
  | nil => rfl
  | cons t ts ih =>
      by_cases h : t.1 = M <;> simp_all [setKey]

theorem nodupKeys_addStep (acc : Terms K) (t : Monomial × K) (h : nodupKeys acc) :
    nodupKeys (addStep acc t) := by
  unfold addStep
  cases hl : lookupK t.1 acc with
  | some c1 =>
      by_cases hz : c1 + t.2 = 0
      · simpa [hz] using nodupKeys_eraseKey t.1 acc h
      · simpa [hz, nodupKeys, setKey_map_fst] using h
  | none =>
      have hnotin : t.1 ∉ acc.map Prod.fst := (lookupK_eq_none_iff t.1 acc).1 hl
      simp [nodupKeys, List.nodup_append, h, hnotin]

theorem nodupKeys_addTerms (f g : Terms K) (h : nodupKeys f) :
    nodupKeys (addTerms f g) := by
  induction g generalizing f with
  | nil => simpa [addTerms] using h
  | cons t g ih => exact ih (addStep f t) (nodupKeys_addStep f t h)

theorem lookupK_addStep (acc : Terms K) (t : Monomial × K) (M : Monomial) :
    lookupK M (addStep acc t) =
      if t.1 = M then
        match lookupK M acc with
        | some v => if v + t.2 = 0 then none else some (v + t.2)
        | none => some t.2
      else lookupK M acc := by
  unfold addStep
  by_cases hM : t.1 = M
  · subst hM
    cases hl : lookupK t.1 acc with
    | some v =>
        by_cases hz : v + t.2 = 0
        · simp [hz, lookupK_eraseKey]
        · simp [hz, lookupK_setKey, hl]
    | none =>
        rw [lookupK_append_of_none t.1 acc [t] hl]
        simp
  · cases hl : lookupK t.1 acc with
    | some v =>
        by_cases hz : v + t.2 = 0
        · simp [hz, lookupK_eraseKey, hM]
        · simp [hz, lookupK_setKey, hM]
    | none =>
        cases hl2 : lookupK M acc with
        | some v => simp [lookupK_append_of_some M acc [t] v hl2, hM]
        | none =>
            rw [lookupK_append_of_none M acc [t] hl2]
            simp [hM, hl2]

theorem addMergeSpec_none_right (x : Option K) : addMergeSpec x none = x := by
  cases x <;> rfl

theorem lookupK_addTerms (f g : Terms K) (hg : nodupKeys g) (M : Monomial) :
    lookupK M (addTerms f g) = addMergeSpec (lookupK M f) (lookupK M g) := by
  induction g generalizing f with
  | nil =>
      cases hl : lookupK M f <;> simp [addTerms, addMergeSpec, hl]
  | cons t g ih =>
      have htg : addTerms f (t :: g) = addTerms (addStep f t) g := rfl
      rw [htg, ih (addStep f t) (List.nodup_cons.1 hg).2]
      by_cases hM : t.1 = M
      · have hgnone : lookupK M g = none := by
          rw [lookupK_eq_none_iff, ← hM]
          exact (List.nodup_cons.1 hg).1
        rw [lookupK_addStep, if_pos hM, hgnone, addMergeSpec_none_right]
        cases hf : lookupK M f <;> simp [addMergeSpec, hM]
      · have hcons : lookupK M (t :: g) = lookupK M g := by simp [hM]
        rw [lookupK_addStep, if_neg hM, hcons]

theorem nodupKeys_mulStep (m1 : Monomial) (c1 : K) (acc : Terms K)
    (t2 : Monomial × K) (h : nodupKeys acc) : nodupKeys (mulStep m1 c1 acc t2) := by
  unfold mulStep
  cases hl : lookupK (monomialProd m1 t2.1) acc with
  | some v =>
      by_cases hz : v + c1 * t2.2 = 0
      · simpa [hz] using nodupKeys_eraseKey (monomialProd m1 t2.1) acc h
      · simpa [hz, nodupKeys, setKey_map_fst] using h
  | none =>
      have hnotin : monomialProd m1 t2.1 ∉ acc.map Prod.fst :=
        (lookupK_eq_none_iff _ acc).1 hl
      simp [nodupKeys, List.nodup_append, h, hnotin]

theorem nodupKeys_mulTerms (f g : Terms K) : nodupKeys (mulTerms f g) := by
  have hfold : ∀ (l : Terms K) (m1 : Monomial) (c1 : K) (acc : Terms K),
      nodupKeys acc → nodupKeys (l.foldl (mulStep m1 c1) acc) := by
    intro l
    induction l with
    | nil => intro m1 c1 acc h; simpa using h
    | cons t2 l ih =>
        intro m1 c1 acc h
        exact ih m1 c1 (mulStep m1 c1 acc t2) (nodupKeys_mulStep m1 c1 acc t2 h)
  have houter : ∀ (l : Terms K) (acc : Terms K), nodupKeys acc →
      nodupKeys (l.foldl (fun acc t1 => g.foldl (mulStep t1.1 t1.2) acc) acc) := by
    intro l
    induction l with
    | nil => intro acc h; simpa using h
    | cons t1 l ih =>
        intro acc h
        exact ih _ (hfold g t1.1 t1.2 acc h)
  simpa [mulTerms] using houter f [] (by simp [nodupKeys])

theorem lookupK_mulStep (m1 : Monomial) (c1 : K) (acc : Terms K)
    (t2 : Monomial × K) (M : Monomial) :
    lookupK M (mulStep m1 c1 acc t2) =
      if monomialProd m1 t2.1 = M then
        match lookupK M acc with
        | some v => if v + c1 * t2.2 = 0 then none else some (v + c1 * t2.2)
        | none => some (c1 * t2.2)
      else lookupK M acc := by
  unfold mulStep
  by_cases hM : monomialProd m1 t2.1 = M
  · subst hM
    cases hl : lookupK (monomialProd m1 t2.1) acc with
    | some v =>
        by_cases hz : v + c1 * t2.2 = 0
        · simp [hz, lookupK_eraseKey]
        · simp [hz, lookupK_setKey, hl]
    | none =>
        rw [lookupK_append_of_none _ acc _ hl]
        simp
  · cases hl : lookupK (monomialProd m1 t2.1) acc with
    | some v =>
        by_cases hz : v + c1 * t2.2 = 0
        · simp [hz, lookupK_eraseKey, hM]
        · simp [hz, lookupK_setKey, hM]
    | none =>
        cases hl2 : lookupK M acc with
        | some v => simp [lookupK_append_of_some M acc _ v hl2, hM]
        | none =>
            rw [lookupK_append_of_none M acc _ hl2]
            simp [hM, hl2]

theorem lookupK_mulFold_inner (m1 : Monomial) (c1 : K)
    (hnzd : ∀ a b : K, a ≠ 0 → b ≠ 0 → a * b ≠ 0) (hc1 : c1 ≠ 0)
    (g : Terms K) (hg : ∀ t ∈ g, t.2 ≠ 0) :
    ∀ (acc : Terms K) (S : Monomial → K),
      (∀ N, lookupK N acc = if S N = 0 then none else some (S N)) →
      ∀ M, lookupK M (g.foldl (mulStep m1 c1) acc) =
        if S M + innerSum m1 c1 g M = 0 then none
        else some (S M + innerSum m1 c1 g M) := by
  induction g with
  | nil =>
      intro acc S hacc M
      simpa [innerSum] using hacc M
  | cons t2 g ih =>
      intro acc S hacc M
      have hc2 : t2.2 ≠ 0 := hg t2 (List.mem_cons_self _ _)
      have hc : c1 * t2.2 ≠ 0 := hnzd _ _ hc1 hc2
      have hacc' : ∀ N, lookupK N (mulStep m1 c1 acc t2) =
          if S N + (if monomialProd m1 t2.1 = N then c1 * t2.2 else 0) = 0 then none
          else some (S N + (if monomialProd m1 t2.1 = N then c1 * t2.2 else 0)) := by
        intro N
        rw [lookupK_mulStep]
        by_cases hN : monomialProd m1 t2.1 = N
        · rw [if_pos hN, if_pos hN, hacc N]
          by_cases hz : S N = 0
          · rw [if_pos hz, hz, zero_add, if_neg hc]
          · rw [if_neg hz]
        · rw [if_neg hN, if_neg hN, add_zero, hacc N]
      have hrec := ih (fun t ht => hg t (List.mem_cons_of_mem _ ht))
        (mulStep m1 c1 acc t2)
        (fun N => S N + (if monomialProd m1 t2.1 = N then c1 * t2.2 else 0)) hacc' M
      rw [List.foldl_cons, hrec]
      have hin : innerSum m1 c1 (t2 :: g) M =
          (if monomialProd m1 t2.1 = M then c1 * t2.2 else 0) + innerSum m1 c1 g M := by
        simp [innerSum]
      rw [hin, ← add_assoc]

theorem lookupK_mulFold_outer
    (hnzd : ∀ a b : K, a ≠ 0 → b ≠ 0 → a * b ≠ 0)
    (g : Terms K) (hg : ∀ t ∈ g, t.2 ≠ 0) :
    ∀ (f : Terms K), (∀ t ∈ f, t.2 ≠ 0) →
    ∀ (acc : Terms K) (S : Monomial → K),
      (∀ N, lookupK N acc = if S N = 0 then none else some (S N)) →
      ∀ M, lookupK M (f.foldl (fun acc t1 => g.foldl (mulStep t1.1 t1.2) acc) acc) =
        if S M + bilinearSum f g M = 0 then none
        else some (S M + bilinearSum f g M) := by
  intro f
  induction f with
  | nil =>
      intro _ acc S hacc M
      simpa [bilinearSum] using hacc M
  | cons t1 f ih =>
      intro hf acc S hacc M
      have hc1 : t1.2 ≠ 0 := hf t1 (List.mem_cons_self _ _)
      have hacc' := lookupK_mulFold_inner t1.1 t1.2 hnzd hc1 g hg acc S hacc
      have hrec := ih (fun t ht => hf t (List.mem_cons_of_mem _ ht))
        (g.foldl (mulStep t1.1 t1.2) acc)
        (fun N => S N + innerSum t1.1 t1.2 g N) hacc' M
      rw [List.foldl_cons, hrec]
      have hbl : bilinearSum (t1 :: f) g M =
          innerSum t1.1 t1.2 g M + bilinearSum f g M := by
        simp [bilinearSum]
      rw [hbl, ← add_assoc]

theorem lookupK_mulTerms (f g : Terms K)
    (hf : ∀ t ∈ f, t.2 ≠ 0) (hg : ∀ t ∈ g, t.2 ≠ 0)
    (hnzd : ∀ a b : K, a ≠ 0 → b ≠ 0 → a * b ≠ 0) (M : Monomial) :
    lookupK M (mulTerms f g) =
      if bilinearSum f g M = 0 then none else some (bilinearSum f g M) := by
  have h := lookupK_mulFold_outer hnzd g hg f hf [] (fun _ => 0)
    (fun N => by simp) M
  simpa [mulTerms] using h

theorem addMergeSpec_ne_zero (x y : Option K) (v : K)
    (hx : ∀ a, x = some a → a ≠ 0) (hy : ∀ b, y = some b → b ≠ 0)
    (h : addMergeSpec x y = some v) : v ≠ 0 := by
  cases x with
  | none =>
      cases y with
      | none => simp [addMergeSpec] at h
      | some b =>
          simp [addMergeSpec] at h
          rw [← h]
          exact hy b rfl
  | some a =>
      cases y with
      | none =>
          simp [addMergeSpec] at h
          rw [← h]
          exact hx a rfl
      | some b =>
          by_cases hz : a + b = 0
          · simp [addMergeSpec, hz] at h
          · simp [addMergeSpec, hz] at h
            rw [← h]
            exact hz

theorem reduced_addTerms (f g : Terms K) (hf : ReducedT f) (hg : ReducedT g) :
    ReducedT (addTerms f g) := by
  refine ⟨nodupKeys_addTerms f g hf.1, ?_⟩
  intro t ht
  have hl := lookupK_of_mem _ t (nodupKeys_addTerms f g hf.1) ht
  rw [lookupK_addTerms f g hg.1 t.1] at hl
  exact addMergeSpec_ne_zero _ _ _
    (fun a ha => hf.2 _ (lookupK_mem _ _ _ ha))
    (fun b hb => hg.2 _ (lookupK_mem _ _ _ hb)) hl

theorem negTerms_map_fst (g : Terms K) :
    (negTerms g).map Prod.fst = g.map Prod.fst := by
  induction g with
  | nil => rfl
  | cons t ts ih => simpa [negTerms] using ih

theorem reduced_negTerms (g : Terms K) (hg : ReducedT g) : ReducedT (negTerms g) := by
  constructor
  · show ((negTerms g).map Prod.fst).Nodup
    rw [negTerms_map_fst]
    exact hg.1
  · intro t ht
    obtain ⟨s, hs, he⟩ := List.mem_map.1 ht
    rw [← he]
    show 0 - s.2 ≠ 0
    rw [zero_sub]
    exact neg_ne_zero.2 (hg.2 s hs)

theorem reduced_mulTerms (f g : Terms K)
    (hnzd : ∀ a b : K, a ≠ 0 → b ≠ 0 → a * b ≠ 0)
    (hf : ReducedT f) (hg : ReducedT g) : ReducedT (mulTerms f g) := by
  refine ⟨nodupKeys_mulTerms f g, ?_⟩
  intro t ht
  have hl := lookupK_of_mem _ t (nodupKeys_mulTerms f g) ht
  rw [lookupK_mulTerms f g hf.2 hg.2 hnzd t.1] at hl
  by_cases hz : bilinearSum f g t.1 = 0
  · rw [if_pos hz] at hl
    exact Option.noConfusion hl
  · rw [if_neg hz] at hl
    rw [← Option.some.inj hl]
    exact hz

/-- C1 (amended): for operands in Reduced form, over a coefficient ring in
which the product of two nonzero elements is nonzero, the result of each
arithmetic operator (add, sub, mul) is Reduced: at most one entry per monomial
and no coefficient equal to the additive identity. (`sub` is modelled from the
spec because `impl Sub` is a `todo!()` placeholder.) -/
theorem arith_operators_return_reduced (f g : Terms K)
    (hnzd : ∀ a b : K, a ≠ 0 → b ≠ 0 → a * b ≠ 0)
    (hf : ReducedT f) (hg : ReducedT g) :
    ReducedT (addTerms f g) ∧ ReducedT (subTerms f g) ∧ ReducedT (mulTerms f g) :=
  ⟨reduced_addTerms f g hf hg,
   reduced_addTerms f (negTerms g) hf (reduced_negTerms g hg),
   reduced_mulTerms f g hnzd hf hg⟩

/-- Witness for the amended C1 at concrete Reduced operands over the
integers. -/
theorem arith_operators_return_reduced_witness :
    ReducedT (addTerms [([0], (1 : Int))] [([1], 2)]) ∧
    ReducedT (subTerms [([0], (1 : Int))] [([1], 2)]) ∧
    ReducedT (mulTerms [([0], (1 : Int))] [([1], 2)]) :=
  arith_operators_return_reduced [([0], (1 : Int))] [([1], 2)]
    (fun a b ha hb => mul_ne_zero ha hb) (by decide) (by decide)

/-- Counterexample to C1 as stated: with an unreduced right operand (a term map
containing the coefficient zero), `Polynomial::add` inserts the zero
coefficient into a vacant entry unchecked, so the result is not Reduced. -/
theorem add_unreduced_operand_output_not_reduced :
    ¬ ReducedT (addTerms ([] : Terms Int) [([0], 0)]) := by decide

/-- C2 (amended): for Reduced operands over a coefficient ring in which the
product of two nonzero elements is nonzero, multiplication is the full
bilinear expansion: the entry of the result at each monomial `M` is the
accumulated ring sum of the products `c1 * c2` over all term pairs whose
product monomial is `M`, and is absent exactly when that accumulated sum is
the additive identity. -/
theorem mul_is_bilinear_expansion (f g : Terms K)
    (hnzd : ∀ a b : K, a ≠ 0 → b ≠ 0 → a * b ≠ 0)
    (hf : ReducedT f) (hg : ReducedT g) (M : Monomial) :
    lookupK M (mulTerms f g) =
      if bilinearSum f g M = 0 then none else some (bilinearSum f g M) :=
  lookupK_mulTerms f g hf.2 hg.2 hnzd M

/-- Witness for the amended C2 at concrete Reduced operands over the
integers. -/
theorem mul_is_bilinear_expansion_witness :
    lookupK [1] (mulTerms [([1], (2 : Int))] [([0], 3)]) =
      if bilinearSum [([1], (2 : Int))] [([0], 3)] [1] = 0 then none
      else some (bilinearSum [([1], (2 : Int))] [([0], 3)] [1]) :=
  mul_is_bilinear_expansion [([1], (2 : Int))] [([0], 3)]
    (fun a b ha hb => mul_ne_zero ha hb) (by decide) (by decide) [1]

/-- Counterexample to C2 as stated: over `ZMod 4` the Reduced operands
`2 * x ^ 0` and `2 * x ^ 0` multiply to the single contribution
`2 * 2 = 0`, which `Polynomial::mul` inserts into a vacant entry unchecked;
the monomial whose final accumulated coefficient is zero is present in the
result, not absent. -/
theorem mul_keeps_freshly_inserted_zero :
    lookupK [0] (mulTerms [([0], (2 : ZMod 4))] [([0], (2 : ZMod 4))]) = some 0 := by
  decide

/-- C3 (amended): for Reduced operands, addition is the merge of the two term
maps: a monomial present in exactly one operand keeps that operand's
coefficient, one present in both maps to the ring sum of the two coefficients
(dropped when the sum is zero), and no monomial of the result carries the
additive identity. -/
theorem add_merges_term_maps (f g : Terms K)
    (hf : ReducedT f) (hg : ReducedT g) (M : Monomial) :
    lookupK M (addTerms f g) = addMergeSpec (lookupK M f) (lookupK M g) ∧
    lookupK M (addTerms f g) ≠ some 0 := by
  refine ⟨lookupK_addTerms f g hg.1 M, ?_⟩
  intro h
  exact (reduced_addTerms f g hf hg).2 _ (lookupK_mem _ _ _ h) rfl

/-- Witness for the amended C3 at concrete Reduced operands over the
integers. -/
theorem add_merges_term_maps_witness :
    (lookupK [0] (addTerms [([0], (1 : Int))] [([0], 2)]) =
      addMergeSpec (lookupK [0] [([0], (1 : Int))]) (lookupK [0] [([0], (2 : Int))])) ∧
    lookupK [0] (addTerms [([0], (1 : Int))] [([0], 2)]) ≠ some 0 :=
  add_merges_term_maps [([0], (1 : Int))] [([0], 2)] (by decide) (by decide) [0]

/-- Counterexample to C3 as stated: with an unreduced left operand the
monomial `[0]`, present in exactly one operand with coefficient zero, keeps
that zero coefficient in the result of `Polynomial::add` instead of being
absent as the claim requires of zero resulting coefficients. -/
theorem add_retains_zero_resulting_coefficient :
    lookupK [0] (addTerms [([0], (0 : Int))] ([] : Terms Int)) = some 0 := rfl

/-- C4: subtraction equals negating every coefficient of the right operand by
`zero - coeff` and then adding; both sides are modelled from the spec because
the source's `impl Sub` is a `todo!()` placeholder. -/
theorem sub_is_negate_then_add (f g : Terms K) :
    subTerms f g = addTerms f (negTerms g) ∧
    negTerms g = g.map (fun t => (t.1, 0 - t.2)) :=
  ⟨rfl, rfl⟩

/-- C5: `try_as_reduced` (modelled from the spec; absent from the source)
succeeds returning the same list exactly when every monomial is distinct and
no coefficient is zero, and otherwise fails carrying the original list back
unchanged. -/
theorem tryAsReduced_ok_iff (ts : Terms K) :
    (tryAsReduced ts = Except.ok ts ↔ ReducedT ts) ∧
    (¬ ReducedT ts → tryAsReduced ts = Except.error ts) := by
  constructor
  · constructor
    · intro h
      by_contra hred
      rw [tryAsReduced, if_neg hred] at h
      exact Except.noConfusion h
    · intro h
      rw [tryAsReduced, if_pos h]
  · intro h
    rw [tryAsReduced, if_neg h]

/-- Witness for C5: a term list with a zero coefficient fails with the
not-reduced condition and the failure carries the original list unchanged
(spec scenario 4). -/
theorem tryAsReduced_ok_iff_witness :
    tryAsReduced [([0], (0 : Int))] = Except.error [([0], 0)] :=
  (tryAsReduced_ok_iff [([0], (0 : Int))]).2 (by decide)

/-- C6: evaluation of the source's exponent sum at the failing input: the
pointwise `u32` addition inside `Polynomial::mul` silently wraps
`4294967295 + 1` to `0` (release-mode semantics of plain `+`) instead of
signalling a checked failure or saturating as the spec mandates. -/
theorem exponent_sum_silently_wraps :
    monomialProd [4294967295] [1] = [0] ∧ expAdd 4294967295 1 = 0 :=
  ⟨rfl, rfl⟩

theorem monomialProd_comm (m1 m2 : Monomial) :
    monomialProd m1 m2 = monomialProd m2 m1 := by
  induction m1 generalizing m2 with
  | nil => cases m2 <;> rfl
  | cons a m1 ih =>
      cases m2 with
      | nil => rfl
      | cons b m2 =>
          have h1 : expAdd a b = expAdd b a := by
            simp [expAdd, Nat.add_comm]
          show expAdd a b :: List.zipWith expAdd m1 m2 =
            expAdd b a :: List.zipWith expAdd m2 m1
          rw [h1]
          exact congrArg (List.cons (expAdd b a)) (ih m2)

theorem listSum_map_zero {α : Type} (l : List α) :
    (l.map (fun _ => (0 : K))).sum = 0 := by
  induction l <;> simp_all

theorem listSum_map_add {α : Type} (l : List α) (A B : α → K) :
    (l.map (fun x => A x + B x)).sum = (l.map A).sum + (l.map B).sum := by
  induction l with
  | nil => simp
  | cons a l ih =>
      simp only [List.map_cons, List.sum_cons, ih]
      abel

theorem listSum_swap {α β : Type} (f : List α) (g : List β) (F : α → β → K) :
    (f.map (fun a => (g.map (F a)).sum)).sum =
      (g.map (fun b => (f.map (fun a => F a b)).sum)).sum := by
  induction f with
  | nil => simp [listSum_map_zero]
  | cons a f ih =>
      simp only [List.map_cons, List.sum_cons, ih]
      rw [← listSum_map_add g (F a) (fun b => (f.map (fun x => F x b)).sum)]

theorem bilinearSum_comm (hc : ∀ a b : K, a * b = b * a) (f g : Terms K)
    (M : Monomial) : bilinearSum f g M = bilinearSum g f M := by
  have hinner : ∀ b : Monomial × K,
      (fun (a : Monomial × K) =>
        if monomialProd a.1 b.1 = M then a.2 * b.2 else 0) =
      (fun (a : Monomial × K) =>
        if monomialProd b.1 a.1 = M then b.2 * a.2 else 0) := by
    intro b
    funext a
    rw [monomialProd_comm, hc]
  have hfun : (fun (b : Monomial × K) =>
        (f.map (fun a => if monomialProd a.1 b.1 = M then a.2 * b.2 else 0)).sum) =
      (fun (b : Monomial × K) =>
        (f.map (fun a => if monomialProd b.1 a.1 = M then b.2 * a.2 else 0)).sum) := by
    funext b
    rw [hinner b]
  have hswap : bilinearSum f g M =
      (g.map (fun b =>
        (f.map (fun a => if monomialProd a.1 b.1 = M then a.2 * b.2 else 0)).sum)).sum :=
    listSum_swap f g
      (fun t1 t2 => if monomialProd t1.1 t2.1 = M then t1.2 * t2.2 else 0)
  exact hswap.trans (congrArg List.sum (congrArg (fun F => List.map F g) hfun))

/-- C7 (amended): addition is commutative as term maps for all operands; over
a commutative coefficient ring, multiplication is commutative as term maps
provided both operands are Reduced and the product of two nonzero coefficients
is never zero. -/
theorem add_comm_mul_comm_term_maps (f g : Terms K)
    (hfk : nodupKeys f) (hgk : nodupKeys g) :
    (∀ M, lookupK M (addTerms f g) = lookupK M (addTerms g f)) ∧
    ((∀ a b : K, a * b = b * a) → (∀ a b : K, a ≠ 0 → b ≠ 0 → a * b ≠ 0) →
      (∀ t ∈ f, t.2 ≠ 0) → (∀ t ∈ g, t.2 ≠ 0) →
      ∀ M, lookupK M (mulTerms f g) = lookupK M (mulTerms g f)) := by
  constructor
  · intro M
    rw [lookupK_addTerms f g hgk M, lookupK_addTerms g f hfk M]
    cases lookupK M f <;> cases lookupK M g <;> simp [addMergeSpec, add_comm]
  · intro hc hnzd hfv hgv M
    rw [lookupK_mulTerms f g hfv hgv hnzd M, lookupK_mulTerms g f hgv hfv hnzd M,
      bilinearSum_comm hc f g M]

/-- Witness for the amended C7 at concrete Reduced operands over the
integers. -/
theorem add_comm_mul_comm_term_maps_witness :
    lookupK [0] (addTerms [([0], (1 : Int))] [([1], 2)]) =
      lookupK [0] (addTerms [([1], (2 : Int))] [([0], 1)]) ∧
    lookupK [1] (mulTerms [([0], (1 : Int))] [([1], 2)]) =
      lookupK [1] (mulTerms [([1], (2 : Int))] [([0], 1)]) :=
  ⟨(add_comm_mul_comm_term_maps [([0], (1 : Int))] [([1], 2)]
      (by decide) (by decide)).1 [0],
   (add_comm_mul_comm_term_maps [([0], (1 : Int))] [([1], 2)]
      (by decide) (by decide)).2 (fun a b => mul_comm a b)
      (fun a b ha hb => mul_ne_zero ha hb) (by decide) (by decide) [1]⟩

/-- Counterexample to C7 as stated: over the commutative ring of integers,
with an unreduced left operand, the products `f * g` and `g * f` computed by
`Polynomial::mul` differ as term maps at the monomial `[2]`: the erase-at-zero
then reinsert-a-zero sequence happens in one iteration order but not in the
other. -/
theorem mul_not_commutative_on_unreduced :
    lookupK [2] (mulTerms [([0], (1 : Int)), ([1], 1), ([2], 0)]
        [([0], (5 : Int)), ([1], -1), ([2], 1)]) ≠
      lookupK [2] (mulTerms [([0], (5 : Int)), ([1], -1), ([2], 1)]
        [([0], (1 : Int)), ([1], 1), ([2], 0)]) := by decide

theorem addFold_append (l : Terms K) (hl : nodupKeys l) :
    ∀ acc : Terms K, (∀ t ∈ l, lookupK t.1 acc = none) →
      l.foldl addStep acc = acc ++ l := by
  induction l with
  | nil => intro acc _; simp
  | cons t l ih =>
      intro acc hdisj
      have hnone := hdisj t (List.mem_cons_self _ _)
      have hstep : addStep acc t = acc ++ [t] := by
        unfold addStep
        rw [hnone]
      rw [List.foldl_cons, hstep,
        ih (List.nodup_cons.1 hl).2 (acc ++ [t]) ?_]
      · simp
      · intro s hs
        have hs1 : lookupK s.1 acc = none := hdisj s (List.mem_cons_of_mem _ hs)
        rw [lookupK_append_of_none s.1 acc [t] hs1]
        have hts : t.1 ≠ s.1 := fun he => (List.nodup_cons.1 hl).1
          (by rw [he]; exact List.mem_map_of_mem Prod.fst hs)
        simp [hts]

/-- C8: for every Reduced polynomial, adding the additive identity (the empty
term map, modelled from the spec because `Zero::zero` is a `todo!()`
placeholder) on either side returns the polynomial unchanged. -/
theorem add_zero_identity (f : Terms K) (hf : ReducedT f) :
    addTerms f zeroPoly = f ∧ addTerms zeroPoly f = f := by
  constructor
  · rfl
  · have h := addFold_append f hf.1 [] (fun t _ => rfl)
    simpa [addTerms, zeroPoly] using h

/-- Witness for C8 at a concrete Reduced polynomial over the integers. -/
theorem add_zero_identity_witness :
    addTerms [([0], (3 : Int))] zeroPoly = [([0], 3)] ∧
    addTerms zeroPoly [([0], (3 : Int))] = [([0], 3)] :=
  add_zero_identity [([0], (3 : Int))] (by decide)

/-- Embeds `PolynomialRing::fmt_monomial` (src/main.rs:46-72): writes the
literal `1` when all exponents are zero, and otherwise, for each nonzero
exponent in order (with `*` between the factors), the variable name at that
position followed by `^` and the exponent unless the exponent is one. The
out-of-range default of `getD` models the in-bounds indexing `self.vars[i]`
performed by the source. -/
def fmtMonomial (vars : List String) (m : Monomial) : String :=
  if m.all (fun p => p == 0) then "1"
  else ((m.enum.filter (fun jp => ¬ jp.2 = 0)).enum).foldl
    (fun acc ijp =>
      let acc1 := if ijp.1 > 0 then acc ++ "*" else acc
      let acc2 := acc1 ++ vars.getD ijp.2.1 ""
      if ¬ ijp.2.2 = 1 then acc2 ++ ("^" ++ toString ijp.2.2) else acc2)
    ""

/-- Embeds the `Display` implementation for `Polynomial` (src/main.rs:271-292),
parametrized by the two coefficient renderers the source obtains from the
coefficient type's `Display` instance: `fC c` models `write!(f, "{c}")` and
`fCS c` models the sign-forcing `write!(f, "{c:+}")`. -/
def fmtPolynomial (fC fCS : K → String) (vars : List String) (ts : Terms K) : String :=
  if ts = [] then "0"
  else ts.enum.foldl
    (fun acc imc =>
      let acc1 :=
        if ¬ imc.2.2 = 1 then
          (if imc.1 > 0 then acc ++ fCS imc.2.2 else acc ++ fC imc.2.2) ++ "*"
        else if imc.1 > 0 then acc ++ "+" else acc
      acc1 ++ fmtMonomial vars imc.2.1)
    ""

/-- Concatenation of a list of rendered pieces. -/
def strJoin : List String → String
  | [] => ""
  | s :: l => s ++ strJoin l

/-- Separator-joined rendering of a list of pieces. -/
def sepJoin (sep : String) : List String → String
  | [] => ""
  | s :: l => if l = [] then s else s ++ sep ++ sepJoin sep l

/-- Spec-side monomial rendering, following the claim's words: the literal
`1` when all exponents are zero, and otherwise the `*`-joined product over
the nonzero exponents of the variable name followed by `^exponent`, with the
suffix omitted exactly when the exponent is one. -/
def monomialStr (vars : List String) (m : Monomial) : String :=
  if m.all (fun p => p == 0) then "1"
  else sepJoin "*" ((m.enum.filter (fun jp => ¬ jp.2 = 0)).map
    (fun jp => vars.getD jp.1 "" ++ (if jp.2 = 1 then "" else "^" ++ toString jp.2)))

/-- Spec-side rendering of the term at position `i`, following the claim's
words: the coefficient followed by the monomial, with the coefficient omitted
exactly when it is the multiplicative identity; a term after the first is
prefixed with `+` when its coefficient is omitted and otherwise lets the
coefficient render its own sign. -/
def termStr (fC fCS : K → String) (vars : List String) (i : Nat) (m : Monomial)
    (c : K) : String :=
  (if c = 1 then (if i > 0 then "+" else "")
   else (if i > 0 then fCS c else fC c) ++ "*") ++ monomialStr vars m

/-- Spec-side polynomial rendering, following the claim's words: the empty
polynomial renders as `0`, and otherwise the terms render in order. -/
def polynomialStr (fC fCS : K → String) (vars : List String) (ts : Terms K) : String :=
  if ts = [] then "0"
  else strJoin (ts.enum.map (fun imc => termStr fC fCS vars imc.1 imc.2.1 imc.2.2))

theorem foldl_isAppend_eq_strJoin {α : Type} (step : String → α → String)
    (h : α → String) (hstep : ∀ acc x, step acc x = acc ++ h x) :
    ∀ (l : List α) (s : String), l.foldl step s = s ++ strJoin (l.map h)
  | [], s => by simp [strJoin, String.append_empty]
  | a :: l, s => by
      rw [List.foldl_cons, hstep s a,
        foldl_isAppend_eq_strJoin step h hstep l (s ++ h a)]
      simp [strJoin, String.append_assoc]

theorem strJoin_enumFrom_star {α : Type} (h : α → String) :
    ∀ (l : List α) (n : Nat),
      strJoin ((l.enumFrom (n + 1)).map
        (fun ix => (if ix.1 > 0 then "*" else "") ++ h ix.2)) =
      strJoin (l.map (fun x => "*" ++ h x))
  | [], _ => rfl
  | a :: l, n => by
      rw [List.enumFrom_cons, List.map_cons, List.map_cons]
      show (if n + 1 > 0 then "*" else "") ++ h a ++
          strJoin ((l.enumFrom (n + 2)).map
            (fun ix => (if ix.1 > 0 then "*" else "") ++ h ix.2)) =
        ("*" ++ h a) ++ strJoin (l.map (fun x => "*" ++ h x))
      rw [if_pos (Nat.succ_pos n), strJoin_enumFrom_star h l (n + 1)]

theorem strJoin_star_eq_sepJoin (s : String) :
    ∀ l : List String, s ++ strJoin (l.map (fun x => "*" ++ x)) = sepJoin "*" (s :: l)
  | [] => by simp [strJoin, sepJoin, String.append_empty]
  | b :: l => by
      rw [List.map_cons]
      show s ++ (("*" ++ b) ++ strJoin (l.map (fun x => "*" ++ x))) =
        sepJoin "*" (s :: b :: l)
      have hsep : sepJoin "*" (s :: b :: l) = s ++ "*" ++ sepJoin "*" (b :: l) := by
        show (if (b :: l) = [] then s else s ++ "*" ++ sepJoin "*" (b :: l)) =
          s ++ "*" ++ sepJoin "*" (b :: l)
        rw [if_neg (List.cons_ne_nil b l)]
      rw [hsep, ← strJoin_star_eq_sepJoin b l]
      simp [String.append_assoc]

theorem strJoin_enum_sep {α : Type} (h : α → String) (l : List α) :
    strJoin ((l.enum).map (fun ix => (if ix.1 > 0 then "*" else "") ++ h ix.2)) =
      sepJoin "*" (l.map h) := by
  cases l with
  | nil => rfl
  | cons a l =>
      rw [List.enum_cons, List.map_cons, List.map_cons]
      show (if 0 > 0 then "*" else "") ++ h a ++
          strJoin ((l.enumFrom 1).map
            (fun ix => (if ix.1 > 0 then "*" else "") ++ h ix.2)) =
        sepJoin "*" (h a :: l.map h)
      rw [if_neg (by simp), strJoin_enumFrom_star h l 0, String.empty_append,
        ← strJoin_star_eq_sepJoin (h a) (l.map h), List.map_map]
      rfl

theorem fmtMonomial_eq_monomialStr (vars : List String) (m : Monomial) :
    fmtMonomial vars m = monomialStr vars m := by
  unfold fmtMonomial monomialStr
  by_cases hz : (m.all fun p => p == 0) = true
  · rw [if_pos hz, if_pos hz]
  · rw [if_neg hz, if_neg hz]
    have hstep : ∀ (acc : String) (ijp : Nat × (Nat × Nat)),
        (let acc1 := if ijp.1 > 0 then acc ++ "*" else acc
         let acc2 := acc1 ++ vars.getD ijp.2.1 ""
         if ¬ ijp.2.2 = 1 then acc2 ++ ("^" ++ toString ijp.2.2) else acc2) =
        acc ++ ((if ijp.1 > 0 then "*" else "") ++
          (vars.getD ijp.2.1 "" ++
            (if ijp.2.2 = 1 then "" else "^" ++ toString ijp.2.2))) := by
      intro acc ijp
      by_cases h1 : ijp.1 > 0 <;> by_cases h2 : ijp.2.2 = 1 <;>
        simp [h1, h2, String.append_assoc, String.append_empty, String.empty_append]
    have hj := foldl_isAppend_eq_strJoin
      (fun (acc : String) (ijp : Nat × (Nat × Nat)) =>
        let acc1 := if ijp.1 > 0 then acc ++ "*" else acc
        let acc2 := acc1 ++ vars.getD ijp.2.1 ""
        if ¬ ijp.2.2 = 1 then acc2 ++ ("^" ++ toString ijp.2.2) else acc2)
      (fun ijp => (if ijp.1 > 0 then "*" else "") ++
        (vars.getD ijp.2.1 "" ++
          (if ijp.2.2 = 1 then "" else "^" ++ toString ijp.2.2)))
      hstep ((m.enum.filter (fun jp => ¬ jp.2 = 0)).enum) ""
    rw [hj, String.empty_append]
    exact strJoin_enum_sep
      (fun jp => vars.getD jp.1 "" ++ (if jp.2 = 1 then "" else "^" ++ toString jp.2))
      (m.enum.filter (fun jp => ¬ jp.2 = 0))

theorem fmtPolynomial_eq_polynomialStr (fC fCS : K → String) (vars : List String)
    (ts : Terms K) : fmtPolynomial fC fCS vars ts = polynomialStr fC fCS vars ts := by
  unfold fmtPolynomial polynomialStr
  by_cases hnil : ts = []
  · rw [if_pos hnil, if_pos hnil]
  · rw [if_neg hnil, if_neg hnil]
    have hstep : ∀ (acc : String) (imc : Nat × (Monomial × K)),
        (let acc1 :=
          if ¬ imc.2.2 = 1 then
            (if imc.1 > 0 then acc ++ fCS imc.2.2 else acc ++ fC imc.2.2) ++ "*"
          else if imc.1 > 0 then acc ++ "+" else acc
         acc1 ++ fmtMonomial vars imc.2.1) =
        acc ++ termStr fC fCS vars imc.1 imc.2.1 imc.2.2 := by
      intro acc imc
      unfold termStr
      rw [fmtMonomial_eq_monomialStr]
      by_cases h1 : imc.2.2 = 1 <;> by_cases h2 : imc.1 > 0 <;>
        simp [h1, h2, String.append_assoc, String.empty_append]
    have hj := foldl_isAppend_eq_strJoin
      (fun (acc : String) (imc : Nat × (Monomial × K)) =>
        let acc1 :=
          if ¬ imc.2.2 = 1 then
            (if imc.1 > 0 then acc ++ fCS imc.2.2 else acc ++ fC imc.2.2) ++ "*"
          else if imc.1 > 0 then acc ++ "+" else acc
        acc1 ++ fmtMonomial vars imc.2.1)
      (fun imc => termStr fC fCS vars imc.1 imc.2.1 imc.2.2)
      hstep ts.enum ""
    rw [hj, String.empty_append]

/-- C9: the source's renderer satisfies the claimed algebraic text form: the
empty polynomial renders as the literal zero; each term renders its
coefficient (omitted exactly when it is the multiplicative identity) followed
by its monomial; a monomial renders as the product over its nonzero exponents
of the variable name with the caret-exponent suffix omitted exactly when the
exponent is one, or the literal one when all exponents are zero; and a term
after the first is prefixed with a plus sign exactly when its coefficient is
omitted, the coefficient otherwise rendering its own sign via the sign-forcing
formatter. -/
theorem display_renders_claimed_form (fC fCS : K → String) (vars : List String)
    (ts : Terms K) (m : Monomial) :
    fmtPolynomial fC fCS vars ts = polynomialStr fC fCS vars ts ∧
    fmtMonomial vars m = monomialStr vars m :=
  ⟨fmtPolynomial_eq_polynomialStr fC fCS vars ts, fmtMonomial_eq_monomialStr vars m⟩

theorem zipWith_eq_zip_map {α β γ : Type} (F : α → β → γ) :
    ∀ (l1 : List α) (l2 : List β),
      List.zipWith F l1 l2 = (l1.zip l2).map (fun p => F p.1 p.2)
  | [], l2 => by simp
  | a :: l1, [] => by simp
  | a :: l1, b :: l2 => by simp [zipWith_eq_zip_map F l1 l2]

/-- C10: the product monomial inside `Polynomial::mul` is the pointwise
(wrapping) exponent sum truncated to the length of the shorter of the two
exponent vectors, and multiplication of operands of mismatched arity signals
no error: it totals to an ordinary result, truncated, as the concrete
mismatched-arity product shows. -/
theorem mul_truncates_to_shorter_arity (m1 m2 : Monomial) :
    (monomialProd m1 m2).length = min m1.length m2.length ∧
    monomialProd m1 m2 = (m1.zip m2).map (fun p => expAdd p.1 p.2) ∧
    mulTerms [([1, 2], (1 : Int))] [([3], 1)] = [([4], 1)] :=
  ⟨List.length_zipWith expAdd m1 m2, zipWith_eq_zip_map expAdd m1 m2, by decide⟩
